import Mathlib

/-!
Verification of the LoyaltyDraw public audit tool (src/audit.py) against its
specification.  The program is embedded shallowly: bytes are `List Nat`
(values < 256), Python `str` is Lean `String`, machine integers are `Int`,
and the BLAKE2b-256 compression itself is an abstract parameter
`B2 : List Nat → List Nat` (the claims never depend on properties of the
hash beyond it being a function of its input bytes).
-/

namespace LoyaltyAudit

/-! ### Byte-level primitives -/

/-- UTF-8 encoding of a single character, as a list of byte values.
Mirrors the `str.encode("utf-8")` calls in the source. -/
def utf8Char (c : Char) : List Nat :=
  let v := c.toNat
  if v < 0x80 then [v]
  else if v < 0x800 then [0xC0 + v / 64, 0x80 + v % 64]
  else if v < 0x10000 then [0xE0 + v / 4096, 0x80 + v / 64 % 64, 0x80 + v % 64]
  else [0xF0 + v / 262144, 0x80 + v / 4096 % 64, 0x80 + v / 64 % 64, 0x80 + v % 64]

/-- UTF-8 encoding of a character list. -/
def utf8 (l : List Char) : List Nat := l.flatMap utf8Char

/-- UTF-8 bytes of a string: the model of Python's `s.encode("utf-8")`. -/
def strBytes (s : String) : List Nat := utf8 s.data

/-- Decimal digit characters of a natural number, most significant first.
Models Python's `str(n)` for `n ≥ 0`. -/
def natChars (n : Nat) : List Char :=
  if h : n < 10 then [Nat.digitChar n]
  else natChars (n / 10) ++ [Nat.digitChar (n % 10)]
decreasing_by exact Nat.div_lt_self (by omega) (by omega)

/-- Decimal rendering of an integer as characters: Python's `str(i)`. -/
def intChars (i : Int) : List Char :=
  if i < 0 then '-' :: natChars (-i).toNat else natChars i.toNat

/-- Lowercase hexadecimal rendering of a byte list: the model of
`hashlib`'s `.hexdigest()` applied to digest bytes. -/
def hexEncode (bs : List Nat) : String :=
  String.mk (bs.flatMap (fun b => [Nat.digitChar (b / 16 % 16), Nat.digitChar (b % 16)]))

/-- ASCII whitespace stripped by Python's `str.strip()`. -/
def isPySpace (c : Char) : Bool :=
  c = ' ' || c = '\t' || c = '\n' || c = '\r' || c = '\x0b' || c = '\x0c'

/-- Python `str.strip()` on the character list. -/
def trimList (l : List Char) : List Char :=
  ((l.dropWhile isPySpace).reverse.dropWhile isPySpace).reverse

/-- Python `str.strip()`. -/
def pyStrip (s : String) : String := String.mk (trimList s.data)

/-- Python `str.lower()` (ASCII letters; digest strings are ASCII). -/
def pyLower (s : String) : String := String.mk (s.data.map Char.toLower)

/-- The `.strip().lower()` normalization the source applies before every
digest comparison. -/
def normHex (s : String) : String := pyLower (pyStrip s)

/-- Python `(x or "")` on an optional string: a missing value becomes `""`. -/
def pyStrOr (o : Option String) : String :=
  match o with
  | some s => s
  | none => ""

/-- Big-endian integer value of a byte list: Python's
`int.from_bytes(digest, "big")`. -/
def bytesBE (bs : List Nat) : Nat := bs.foldl (fun a b => 256 * a + b) 0

/-! ### Data model -/

/-- One snapshot row `(shard, user_id, weight)` as parsed by
`parse_snapshot_csv`. -/
structure Row where
  shard : Int
  uid : String
  w : Int
deriving DecidableEq, Repr

/-- Default row used with `List.getD` when stating index facts. -/
def dRow : Row := ⟨0, "", 0⟩

/-! ### Canonical Encoder (`compute_canonical_snapshot_hash`) -/

/-- Character stream contributed by one row: the four `h.update` calls of
the loop body in `compute_canonical_snapshot_hash`. -/
def rowChars (r : Row) : List Char :=
  "|shard:".data ++ (intChars r.shard ++ ("|user:".data ++ (r.uid.data ++
    ("|w:".data ++ (intChars r.w ++ ('\n' :: []))))))

/-- Character stream of all rows in sequence order. -/
def bodyChars : List Row → List Char
  | [] => []
  | r :: rs => "|shard:".data ++ (intChars r.shard ++ ("|user:".data ++ (r.uid.data ++
      ("|w:".data ++ (intChars r.w ++ ('\n' :: bodyChars rs))))))

/-- The full canonical character stream for `(period, rows)`. -/
def canonicalStreamChars (period : String) (rows : List Row) : List Char :=
  "snapshot|ver:1|period:".data ++ (period.data ++ bodyChars rows)

/-- The canonical byte stream fed to the hash in
`compute_canonical_snapshot_hash` (everything there is UTF-8 encoded). -/
def canonicalStreamBytes (period : String) (rows : List Row) : List Nat :=
  utf8 (canonicalStreamChars period rows)

/-- `compute_canonical_snapshot_hash`: hash the canonical stream and render
as lowercase hex.  `B2` abstracts the BLAKE2b-256 digest. -/
def compute_canonical_snapshot_hash (B2 : List Nat → List Nat)
    (period : String) (rows : List Row) : String :=
  hexEncode (B2 (canonicalStreamBytes period rows))

/-- `blake2b_hex`: whole-buffer digest rendered as lowercase hex. -/
def blake2b_hex (B2 : List Nat → List Nat) (data : List Nat) : String :=
  hexEncode (B2 data)

/-! ### Order Validator (`validate_canonical_order`) -/

/-- Result of `validate_canonical_order`: `ok` models `(True, None)`, the
two failure constructors model `(False, msg)` where `msg` names the rule
broken and the 0-based index of the offending row. -/
inductive OrderResult where
  | ok : OrderResult
  | shardDecreased (idx : Nat) : OrderResult
  | userNotAscending (idx : Nat) : OrderResult
deriving DecidableEq, Repr

/-- The scan loop of `validate_canonical_order`, carrying `last_shard`,
`last_user` and the running index. -/
def validateGo (lastS : Option Int) (lastU : Option String) (idx : Nat) :
    List Row → OrderResult
  | [] => .ok
  | r :: rs =>
    match lastS with
    | none => validateGo (some r.shard) (some r.uid) (idx + 1) rs
    | some ls =>
      if ls < r.shard then validateGo (some r.shard) (some r.uid) (idx + 1) rs
      else if r.shard < ls then .shardDecreased idx
      else
        match lastU with
        | none => validateGo (some r.shard) (some r.uid) (idx + 1) rs
        | some lu =>
          if r.uid < lu then .userNotAscending idx
          else validateGo (some r.shard) (some r.uid) (idx + 1) rs

/-- `validate_canonical_order`. -/
def validate_canonical_order (rows : List Row) : OrderResult :=
  validateGo none none 0 rows

/-- The canonical-order condition on one adjacent pair: shard strictly
increases, or shard is equal and the identity does not decrease. -/
def pairOk (a b : Row) : Prop :=
  a.shard < b.shard ∨ (a.shard = b.shard ∧ ¬ b.uid < a.uid)

instance : DecidablePred fun p : Row × Row => pairOk p.1 p.2 := by
  intro p; unfold pairOk; infer_instance

instance (a b : Row) : Decidable (pairOk a b) := by
  unfold pairOk; infer_instance

/-- Reference walk used to characterize the validator: compares each row
with its predecessor `prev`, reporting the first violation with its index. -/
def specWalk (prev : Row) (i : Nat) : List Row → OrderResult
  | [] => .ok
  | b :: rs =>
    if prev.shard < b.shard then specWalk b (i + 1) rs
    else if b.shard < prev.shard then .shardDecreased i
    else if b.uid < prev.uid then .userNotAscending i
    else specWalk b (i + 1) rs

/-! ### Snapshot Parser (`parse_snapshot_csv`) -/

/-- Errors of `parse_snapshot_csv`: the missing-columns `ValueError` and the
per-row `ValueError` carrying the 1-based csv line number. -/
inductive ParseError where
  | formatError : ParseError
  | rowError (line : Nat) : ParseError
deriving DecidableEq, Repr

/-- Columns required by the parser. -/
def requiredCols : List String := ["shard", "user_id", "weight"]

/-- Value of column `name` for a data row, as produced by
`csv.DictReader`: the last occurrence of `name` in the header wins, and a
row shorter than the header yields the rest-value `None` (here `none`). -/
def dictVal (header row : List String) (name : String) : Option String :=
  match (header.reverse).findIdx? (fun h => h == name) with
  | none => none
  | some j => row.get? (header.length - 1 - j)

/-- Python `str(x)` on a dict value: `str(None)` is `"None"`. -/
def pyToStr (o : Option String) : String :=
  match o with
  | some s => s
  | none => "None"

/-- Digit-string value, if every character is a decimal digit and the
string is nonempty. -/
def digitsVal? (l : List Char) : Option Nat :=
  if l ≠ [] ∧ ∀ c ∈ l, c.isDigit then
    some (l.foldl (fun a c => 10 * a + (c.toNat - 48)) 0)
  else none

/-- Python `int(s)` on a string: optional surrounding whitespace, optional
sign, then decimal digits; anything else raises (here `none`). -/
def pyInt? (s : String) : Option Int :=
  match trimList s.data with
  | '+' :: ds => (digitsVal? ds).map (fun n => (n : Int))
  | '-' :: ds => (digitsVal? ds).map (fun n => -(n : Int))
  | ds => (digitsVal? ds).map (fun n => (n : Int))

/-- Python `int(x)` on a dict value: `int(None)` raises (here `none`). -/
def pyIntField (o : Option String) : Option Int := o.bind pyInt?

/-- Conversion of one data row inside the `try` block: `none` exactly when
`int(rec["shard"])` or `int(rec["weight"])` raises.  The identity is taken
verbatim via `str` and can never raise. -/
def parseRow (header row : List String) : Option Row :=
  match pyIntField (dictVal header row "shard"),
        pyIntField (dictVal header row "weight") with
  | some sh, some w => some ⟨sh, pyToStr (dictVal header row "user_id"), w⟩
  | _, _ => none

/-- The row loop of `parse_snapshot_csv`, with `i` the csv line number of
the next data row (`enumerate(rdr, start=2)`). -/
def parseRows (header : List String) : List (List String) → Nat →
    Except ParseError (List Row)
  | [], _ => .ok []
  | row :: rest, i =>
    match parseRow header row with
    | none => .error (.rowError i)
    | some r =>
      match parseRows header rest (i + 1) with
      | .error e => .error e
      | .ok rs => .ok (r :: rs)

/-- `parse_snapshot_csv`, taking the csv-decoded record list (the first
record is the header, as with `csv.DictReader`). -/
def parse_snapshot_csv (csv : List (List String)) : Except ParseError (List Row) :=
  match csv with
  | [] => .error .formatError
  | header :: dataRows =>
    if requiredCols.all (fun c => header.contains c) then
      parseRows header dataRows 2
    else .error .formatError

/-! ### Reproduction Engine (`derive_u`, `reproduce_winners`) -/

/-- `derive_u`: keyed digest of `(seed, period, shard, user_id)` read as a
big-endian integer and scaled by `2^256`, with the exact-zero clamp to the
smallest positive binary64 value `5e-324 = 2^-1074`.  The scaled value is
kept exact (rational); the binary64 rounding of the Python division is not
modelled. -/
def derive_u (B2 : List Nat → List Nat) (seed : List Nat) (period : String)
    (shard : Int) (user_id : String) : ℚ :=
  let msg := strBytes "derive_u|ver:1|" ++ seed ++ strBytes "|period:" ++
    strBytes period ++ strBytes "|shard:" ++ utf8 (intChars shard) ++
    strBytes "|user:" ++ strBytes user_id
  let n := bytesBE (B2 msg)
  let u : ℚ := ((n % 2 ^ 256 : Nat) : ℚ) / ((2 ^ 256 : Nat) : ℚ)
  if u ≤ 0 then 1 / 2 ^ 1074 else u

/-- `reproduce_winners`, generic in the linearly ordered score domain: keep
the rows with positive weight, attach each row's score, sort ascending by
score, take the first `k_total`, and return the `(user_id, weight)` pairs
in rank order.  The score parameter abstracts the floating-point
computation `-log(derive_u(seed, period, shard, uid)) / weight`; the
theorems instantiate it with that formula over the reals. -/
def reproduce_winners {α : Type} [LinearOrder α]
    (score : Int → String → Int → α) (rows : List Row) (k_total : Nat) :
    List (String × Int) :=
  let scored := (rows.filter (fun r => 0 < r.w)).map
    (fun r => (score r.shard r.uid r.w, r.uid, r.w))
  let sorted := scored.mergeSort (fun a b => decide (a.1 ≤ b.1))
  (sorted.take k_total).map (fun t => (t.2.1, t.2.2))

/-! ### Result artifact and the three levels (`main`) -/

/-- The fields of `winners.json` the verification levels read.  Each field
is optional, as with `dict.get`. -/
structure Artifact where
  snapshot_hash_hex : Option String
  totals_users : Option Int
  totals_entries : Option Int
  k_primary : Option Int
  k_alternates : Option Int
  commit_seed_hex : Option String
  legacy_seed_hex : Option String
deriving DecidableEq, Repr

/-- Level 1 (`main`, snapshot integrity): normalized published digest must
be nonempty and equal to the normalized whole-buffer digest. -/
def level1 (B2 : List Nat → List Nat) (snapshot : List Nat) (art : Artifact) : Bool :=
  let expected := normHex (pyStrOr art.snapshot_hash_hex)
  let computed := normHex (blake2b_hex B2 snapshot)
  expected == computed && expected ≠ ""

/-- `actual_entries` of Level 2: `sum(max(0, int(w)) for _, _, w in rows)`. -/
def actual_entries (rows : List Row) : Int :=
  (rows.map (fun r => max 0 r.w)).sum

/-- The totals sub-check of Level 2. -/
def ok_totals (art : Artifact) (rows : List Row) : Bool :=
  (art.totals_users.getD 0 == (rows.length : Int)) &&
  (art.totals_entries.getD 0 == actual_entries rows)

/-- The canonical-hash sub-check of Level 2. -/
def ok_hash (B2 : List Nat → List Nat) (art : Artifact) (period : String)
    (rows : List Row) : Bool :=
  normHex (pyStrOr art.snapshot_hash_hex) ==
    normHex (compute_canonical_snapshot_hash B2 period rows)

/-- Level 2 (`main`, structure and coherence): passes exactly when the
totals, ordering and canonical-hash sub-checks all pass (otherwise the
source exits with status 3). -/
def level2 (B2 : List Nat → List Nat) (art : Artifact) (period : String)
    (rows : List Row) : Bool :=
  ok_totals art rows && (validate_canonical_order rows == .ok) &&
    ok_hash B2 art period rows

/-- `--on-missing-seed` policy (default `skip`). -/
inductive SeedPolicy where
  | error : SeedPolicy
  | skip : SeedPolicy
  | warn : SeedPolicy
deriving DecidableEq, Repr

/-- Outcome of the Level 3 block: `errored` models `sys.exit(4)`, `skipped`
and `warned` model the two early returns, `compared` carries the
recomputed winner list handed to the alias comparison. -/
inductive L3Status where
  | errored : L3Status
  | skipped : L3Status
  | warned : L3Status
  | compared (winners : List (String × Int)) : L3Status
deriving DecidableEq, Repr

/-- Python `a or b` on optional strings: an empty string is falsy. -/
def pyOrOpt (a b : Option String) : Option String :=
  match a with
  | some s => if s = "" then b else some s
  | none => b

/-- Truthy view of an optional string (`if not seed_hex`). -/
def truthyStr (o : Option String) : Option String :=
  match o with
  | some s => if s = "" then none else some s
  | none => none

/-- Level 3 (`main`, reproduce winners): seed lookup with legacy fallback
(`commit.get("seed_hex") or winners.get("seed_hex")`), policy handling when
the seed is absent, otherwise reproduction with
`k_total = k_primary + k_alternates`.  `scoreOf` abstracts the per-record
score derivation from the revealed seed hex. -/
def level3 {α : Type} [LinearOrder α]
    (scoreOf : String → Int → String → Int → α) (policy : SeedPolicy)
    (art : Artifact) (rows : List Row) : L3Status :=
  match truthyStr (pyOrOpt art.commit_seed_hex art.legacy_seed_hex) with
  | none =>
    match policy with
    | .error => .errored
    | .warn => .warned
    | .skip => .skipped
  | some seedHex =>
    let kTotal := (art.k_primary.getD 0) + (art.k_alternates.getD 0)
    .compared (reproduce_winners (scoreOf seedHex) rows kTotal.toNat)

/-- A minimal artifact publishing only the digest `"00"`, used as a
concrete input for witnesses. -/
def hashOnlyArtifact : Artifact :=
  ⟨some "00", none, none, none, none, none, none⟩

/-- Value of a decimal digit string, used to invert `natChars`. -/
def decimalVal (l : List Char) : Nat :=
  l.foldl (fun a c => 10 * a + (c.toNat - 48)) 0

/-! ### Concrete inputs used by counterexamples and bug witnesses -/

/-- A single row whose identity contains the encoder's tag and delimiter
bytes. -/
def cexRowsA : List Row := [⟨1, "a|w:2\n|shard:3|user:b", 5⟩]

/-- Two plain rows whose canonical encoding collides with `cexRowsA`. -/
def cexRowsB : List Row := [⟨1, "a", 2⟩, ⟨3, "b", 5⟩]

/-- A snapshot containing a record with negative weight. -/
def negRows : List Row := [⟨0, "a", -1⟩]

/-- An artifact whose published totals and canonical hash agree with
`negRows` (the operator committed to the snapshot containing the negative
weight). -/
def negArtifact (B2 : List Nat → List Nat) : Artifact :=
  { snapshot_hash_hex := some (compute_canonical_snapshot_hash B2 "2026-01" negRows)
    totals_users := some 1
    totals_entries := some 0
    k_primary := none
    k_alternates := none
    commit_seed_hex := none
    legacy_seed_hex := none }

/-! ## Character and decimal lemmas -/

theorem char_toNat_inj {c₁ c₂ : Char} (h : c₁.toNat = c₂.toNat) : c₁ = c₂ :=
  Char.eq_of_val_eq (UInt32.ext h)

theorem digitChar_bounds {d : Nat} (h : d < 10) :
    48 ≤ (Nat.digitChar d).toNat ∧ (Nat.digitChar d).toNat ≤ 57 := by
  interval_cases d <;> decide

theorem digitChar_val {d : Nat} (h : d < 10) : (Nat.digitChar d).toNat - 48 = d := by
  interval_cases d <;> decide

theorem natChars_digits (n : Nat) : ∀ c ∈ natChars n, 48 ≤ c.toNat ∧ c.toNat ≤ 57 := by
  induction n using Nat.strong_induction_on with
  | _ n ih =>
    rw [natChars]
    split
    · intro c hc
      rw [List.mem_singleton] at hc
      subst hc
      exact digitChar_bounds (by assumption)
    · intro c hc
      rcases List.mem_append.mp hc with hc | hc
      · exact ih _ (Nat.div_lt_self (by omega) (by omega)) c hc
      · rw [List.mem_singleton] at hc
        subst hc
        exact digitChar_bounds (Nat.mod_lt _ (by omega))

theorem natChars_lt10 {n : Nat} (h : n < 10) : natChars n = [Nat.digitChar n] := by
  rw [natChars]
  exact dif_pos h

theorem natChars_ne_nil (n : Nat) : natChars n ≠ [] := by
  rw [natChars]
  split
  · simp
  · simp

theorem decimalVal_natChars (n : Nat) : decimalVal (natChars n) = n := by
  induction n using Nat.strong_induction_on with
  | _ n ih =>
    rw [natChars]
    split
    · simp only [decimalVal, List.foldl_cons, List.foldl_nil]
      rw [digitChar_val (by assumption)]
      omega
    · rw [decimalVal, List.foldl_append]
      have hrec : List.foldl (fun a c => 10 * a + (c.toNat - 48)) 0 (natChars (n / 10)) = n / 10 :=
        ih (n / 10) (Nat.div_lt_self (by omega) (by omega))
      rw [hrec]
      simp only [List.foldl_cons, List.foldl_nil]
      rw [digitChar_val (Nat.mod_lt _ (by omega))]
      omega

theorem natChars_inj {m n : Nat} (h : natChars m = natChars n) : m = n := by
  have := decimalVal_natChars m
  rw [h, decimalVal_natChars] at this
  omega

theorem intChars_chars (i : Int) :
    ∀ c ∈ intChars i, c.toNat = 45 ∨ (48 ≤ c.toNat ∧ c.toNat ≤ 57) := by
  unfold intChars
  split
  · intro c hc
    rcases List.mem_cons.mp hc with hc | hc
    · subst hc; left; decide
    · right; exact natChars_digits _ c hc
  · intro c hc
    right; exact natChars_digits _ c hc

theorem pipe_not_mem_intChars (i : Int) : '|' ∉ intChars i := by
  intro hmem
  rcases intChars_chars i '|' hmem with h | h <;> revert h <;> decide

theorem newline_not_mem_intChars (i : Int) : '\n' ∉ intChars i := by
  intro hmem
  rcases intChars_chars i '\n' hmem with h | h <;> revert h <;> decide

theorem intChars_inj {i j : Int} (h : intChars i = intChars j) : i = j := by
  unfold intChars at h
  split_ifs at h with hi hj hj
  · have h2 := natChars_inj (List.cons.injEq .. |>.mp h).2
    omega
  · exfalso
    have hmem : '-' ∈ natChars j.toNat := by
      rw [← h]; exact List.mem_cons_self ..
    have := natChars_digits _ _ hmem
    revert this; decide
  · exfalso
    have hmem : '-' ∈ natChars i.toNat := by
      rw [h]; exact List.mem_cons_self ..
    have := natChars_digits _ _ hmem
    revert this; decide
  · have := natChars_inj h
    omega

/-! ## UTF-8 lemmas -/

theorem utf8Char_ne_nil (c : Char) : utf8Char c ≠ [] := by
  simp only [utf8Char]
  split_ifs <;> simp

theorem utf8Char_append_inj {c₁ c₂ : Char} {r₁ r₂ : List Nat}
    (h : utf8Char c₁ ++ r₁ = utf8Char c₂ ++ r₂) : c₁ = c₂ ∧ r₁ = r₂ := by
  simp only [utf8Char] at h
  split_ifs at h <;>
    simp only [List.cons_append, List.nil_append, List.cons.injEq] at h <;>
    (first
      | obtain ⟨h1, h2, h3, h4, h5⟩ := h
      | obtain ⟨h1, h2, h3, h4⟩ := h
      | obtain ⟨h1, h2, h3⟩ := h
      | obtain ⟨h1, h2⟩ := h) <;>
    first
      | exact ⟨char_toNat_inj (by omega), by first | rfl | assumption | omega⟩
      | (exfalso; omega)

theorem utf8_inj : ∀ {l₁ l₂ : List Char}, utf8 l₁ = utf8 l₂ → l₁ = l₂ := by
  intro l₁
  induction l₁ with
  | nil =>
    intro l₂ h
    cases l₂ with
    | nil => rfl
    | cons b bs =>
      exfalso
      simp only [utf8, List.flatMap_nil, List.flatMap_cons] at h
      exact utf8Char_ne_nil b (List.append_eq_nil.mp h.symm).1
  | cons a as ih =>
    intro l₂ h
    cases l₂ with
    | nil =>
      exfalso
      simp only [utf8, List.flatMap_nil, List.flatMap_cons] at h
      exact utf8Char_ne_nil a (List.append_eq_nil.mp h).1
    | cons b bs =>
      simp only [utf8, List.flatMap_cons] at h
      obtain ⟨hc, hr⟩ := utf8Char_append_inj h
      rw [hc, ih hr]

/-! ## Delimiter framing -/

/-- Splitting at the first occurrence of a delimiter absent from both
fields recovers the fields. -/
theorem splitAtDelim {d : Char} : ∀ {a b xs ys : List Char},
    d ∉ a → d ∉ b → a ++ d :: xs = b ++ d :: ys → a = b ∧ xs = ys := by
  intro a
  induction a with
  | nil =>
    intro b xs ys _ hb h
    cases b with
    | nil =>
      simp only [List.nil_append] at h
      exact ⟨rfl, (List.cons.injEq .. |>.mp h).2⟩
    | cons c cs =>
      exfalso
      simp only [List.nil_append, List.cons_append] at h
      obtain ⟨hd, _⟩ := List.cons.injEq .. |>.mp h
      exact hb (hd ▸ List.mem_cons_self ..)
  | cons c cs ih =>
    intro b xs ys ha hb h
    cases b with
    | nil =>
      exfalso
      simp only [List.nil_append, List.cons_append] at h
      obtain ⟨hd, _⟩ := List.cons.injEq .. |>.mp h
      exact ha (hd ▸ List.mem_cons_self ..)
    | cons e es =>
      simp only [List.cons_append] at h
      obtain ⟨hd, ht⟩ := List.cons.injEq .. |>.mp h
      have := ih (fun hm => ha (List.mem_cons_of_mem _ hm))
        (fun hm => hb (List.mem_cons_of_mem _ hm)) ht
      exact ⟨by rw [hd, this.1], this.2⟩

/-! ## Canonical Encoder: injectivity on delimiter-free fields, and its
failure on delimiter-carrying identities (claim C1) -/

theorem bodyChars_cons_ne_nil (r : Row) (rs : List Row) : bodyChars (r :: rs) ≠ [] := by
  rw [bodyChars]
  intro hh
  have h1 := (List.append_eq_nil.mp hh).1
  revert h1; decide

theorem bodyChars_inj : ∀ {rows₁ rows₂ : List Row},
    (∀ r ∈ rows₁, '|' ∉ r.uid.data) → (∀ r ∈ rows₂, '|' ∉ r.uid.data) →
    bodyChars rows₁ = bodyChars rows₂ → rows₁ = rows₂ := by
  intro rows₁
  induction rows₁ with
  | nil =>
    intro rows₂ _ _ h
    cases rows₂ with
    | nil => rfl
    | cons q qs => exact absurd h.symm (bodyChars_cons_ne_nil q qs)
  | cons r rs ih =>
    intro rows₂ h₁ h₂ h
    cases rows₂ with
    | nil => exact absurd h (bodyChars_cons_ne_nil r rs)
    | cons q qs =>
      simp only [bodyChars, List.cons_append, List.cons.injEq, true_and] at h
      obtain ⟨hshard, h'⟩ :=
        splitAtDelim (pipe_not_mem_intChars r.shard) (pipe_not_mem_intChars q.shard) h
      simp only [List.cons.injEq, true_and] at h'
      obtain ⟨huid, h''⟩ := splitAtDelim
        (h₁ r (List.mem_cons_self ..)) (h₂ q (List.mem_cons_self ..)) h'
      simp only [List.cons.injEq, true_and] at h''
      obtain ⟨hw, hbody⟩ := splitAtDelim
        (newline_not_mem_intChars r.w) (newline_not_mem_intChars q.w) h''
      have hrest := ih (fun x hx => h₁ x (List.mem_cons_of_mem _ hx))
        (fun x hx => h₂ x (List.mem_cons_of_mem _ hx)) hbody
      have : r = q := by
        cases r; cases q
        simp only [Row.mk.injEq]
        exact ⟨intChars_inj hshard, String.ext huid, intChars_inj hw⟩
      rw [this, hrest]

theorem canonicalStreamChars_inj {p₁ p₂ : String} {rows₁ rows₂ : List Row}
    (hp₁ : '|' ∉ p₁.data) (hp₂ : '|' ∉ p₂.data)
    (hr₁ : ∀ r ∈ rows₁, '|' ∉ r.uid.data) (hr₂ : ∀ r ∈ rows₂, '|' ∉ r.uid.data)
    (h : canonicalStreamChars p₁ rows₁ = canonicalStreamChars p₂ rows₂) :
    p₁ = p₂ ∧ rows₁ = rows₂ := by
  unfold canonicalStreamChars at h
  have h' := List.append_cancel_left h
  cases rows₁ with
  | nil =>
    cases rows₂ with
    | nil =>
      simp only [bodyChars, List.append_nil] at h'
      exact ⟨String.ext h', rfl⟩
    | cons q qs =>
      exfalso
      simp only [bodyChars, List.append_nil, List.cons_append] at h'
      apply hp₁
      rw [h']
      exact List.mem_append.mpr (Or.inr (List.mem_cons_self ..))
  | cons r rs =>
    cases rows₂ with
    | nil =>
      exfalso
      simp only [bodyChars, List.append_nil, List.cons_append] at h'
      apply hp₂
      rw [← h']
      exact List.mem_append.mpr (Or.inr (List.mem_cons_self ..))
    | cons q qs =>
      simp only [bodyChars, List.cons_append] at h'
      obtain ⟨hper, hrest⟩ := splitAtDelim hp₁ hp₂ h'
      refine ⟨String.ext hper, bodyChars_inj hr₁ hr₂ ?_⟩
      simp only [bodyChars, List.cons_append]
      rw [hrest]

theorem canonicalStreamBytes_inj {p₁ p₂ : String} {rows₁ rows₂ : List Row}
    (hp₁ : '|' ∉ p₁.data) (hp₂ : '|' ∉ p₂.data)
    (hr₁ : ∀ r ∈ rows₁, '|' ∉ r.uid.data) (hr₂ : ∀ r ∈ rows₂, '|' ∉ r.uid.data)
    (h : canonicalStreamBytes p₁ rows₁ = canonicalStreamBytes p₂ rows₂) :
    p₁ = p₂ ∧ rows₁ = rows₂ :=
  canonicalStreamChars_inj hp₁ hp₂ hr₁ hr₂ (utf8_inj h)

/-- C1 is false as stated: with an identity string that contains the tag
and delimiter bytes of the encoding, two distinct (period, record-sequence)
pairs canonicalize to the same byte stream before hashing. -/
theorem C1_counterexample :
    cexRowsA ≠ cexRowsB ∧
    canonicalStreamBytes "2026-01" cexRowsA = canonicalStreamBytes "2026-01" cexRowsB := by
  constructor
  · decide
  · simp only [canonicalStreamBytes, canonicalStreamChars, cexRowsA, cexRowsB, bodyChars,
      intChars]
    simp
    simp [natChars_lt10]
    decide

/-- C1 (amended): the Canonical Encoder is injective on (period,
record-sequence) pairs whose period and identity strings do not contain
the delimiter byte `|`; for such inputs, equal encoded byte streams force
equal inputs, so distinct inputs yield the same digest only by hash
collision. -/
theorem C1_canonical_encoding_injective {p₁ p₂ : String} {rows₁ rows₂ : List Row}
    (hp₁ : '|' ∉ p₁.data) (hp₂ : '|' ∉ p₂.data)
    (hr₁ : ∀ r ∈ rows₁, '|' ∉ r.uid.data) (hr₂ : ∀ r ∈ rows₂, '|' ∉ r.uid.data)
    (h : canonicalStreamBytes p₁ rows₁ = canonicalStreamBytes p₂ rows₂) :
    p₁ = p₂ ∧ rows₁ = rows₂ :=
  canonicalStreamBytes_inj hp₁ hp₂ hr₁ hr₂ h

/-- Witness for the amended C1 at a concrete input. -/
theorem C1_canonical_encoding_injective_witness :
    "2026-01" = "2026-01" ∧ ([⟨1, "alice", 2⟩] : List Row) = [⟨1, "alice", 2⟩] :=
  @C1_canonical_encoding_injective "2026-01" "2026-01"
    [⟨1, "alice", 2⟩] [⟨1, "alice", 2⟩]
    (by decide) (by decide) (by decide) (by decide) rfl

/-! ## Hex digests and normalization -/

theorem hexChar_props {m : Nat} (h : m < 16) :
    isPySpace (Nat.digitChar m) = false ∧ (Nat.digitChar m).toLower = Nat.digitChar m := by
  interval_cases m <;> exact ⟨by decide, by decide⟩

theorem dropWhile_all_false {p : Char → Bool} : ∀ {l : List Char},
    (∀ c ∈ l, p c = false) → l.dropWhile p = l := by
  intro l h
  cases l with
  | nil => rfl
  | cons a l =>
    rw [List.dropWhile_cons, h a (List.mem_cons_self ..)]
    simp

theorem trimList_all_false {l : List Char} (h : ∀ c ∈ l, isPySpace c = false) :
    trimList l = l := by
  unfold trimList
  rw [dropWhile_all_false h,
    dropWhile_all_false (fun c hc => h c (List.mem_reverse.mp hc)), List.reverse_reverse]

theorem hexEncode_chars (bs : List Nat) :
    ∀ c ∈ (hexEncode bs).data, isPySpace c = false ∧ c.toLower = c := by
  intro c hc
  simp only [hexEncode] at hc
  obtain ⟨b, _, hcb⟩ := List.mem_flatMap.mp hc
  rcases List.mem_cons.mp hcb with rfl | hcb
  · exact hexChar_props (Nat.mod_lt _ (by omega))
  · rw [List.mem_singleton.mp hcb]
    exact hexChar_props (Nat.mod_lt _ (by omega))

/-- The `.strip().lower()` normalization is the identity on `hexdigest`
output. -/
theorem normHex_hexEncode (bs : List Nat) : normHex (hexEncode bs) = hexEncode bs := by
  unfold normHex pyStrip pyLower
  rw [trimList_all_false (fun c hc => (hexEncode_chars bs c hc).1)]
  have : ∀ l : List Char, (∀ c ∈ l, c.toLower = c) → l.map Char.toLower = l := by
    intro l h
    induction l with
    | nil => rfl
    | cons a l ih =>
      rw [List.map_cons, h a (List.mem_cons_self ..),
        ih (fun c hc => h c (List.mem_cons_of_mem _ hc))]
  show String.mk ((hexEncode bs).data.map Char.toLower) = hexEncode bs
  rw [this _ (fun c hc => (hexEncode_chars bs c hc).2)]

/-! ## Level 1 (claim C5) and the two-digest consequence (claim C10) -/

/-- C5: Level 1 reports a match exactly when the published
`snapshot_hash_hex`, stripped and lowercased, is nonempty and equals the
whole-buffer digest of the exact snapshot bytes; a missing or empty
published digest fails the level, and the snapshot enters the comparison
only through its digest (no parsing is involved). -/
theorem C5_level1_spec (B2 : List Nat → List Nat) (snapshot : List Nat) (art : Artifact) :
    (level1 B2 snapshot art = true ↔
      normHex (pyStrOr art.snapshot_hash_hex) ≠ "" ∧
      normHex (pyStrOr art.snapshot_hash_hex) = blake2b_hex B2 snapshot) ∧
    (∀ s₁ s₂ : List Nat, B2 s₁ = B2 s₂ → level1 B2 s₁ art = level1 B2 s₂ art) := by
  constructor
  · unfold level1
    rw [show normHex (blake2b_hex B2 snapshot) = blake2b_hex B2 snapshot from
      normHex_hexEncode _]
    simp only [Bool.and_eq_true, beq_iff_eq, decide_eq_true_eq]
    tauto
  · intro s₁ s₂ h
    unfold level1 blake2b_hex
    rw [h]

/-- Witness for C5 at a concrete artifact and snapshot. -/
theorem C5_level1_spec_witness :
    level1 (fun _ => [0]) [7] hashOnlyArtifact = true := by
  exact (C5_level1_spec (fun _ => [0]) [7] hashOnlyArtifact).1.mpr
    (by constructor <;> decide)

/-- C10: Level 1 compares the raw-byte digest, and the Level 2 hash
sub-check compares the canonical digest recomputed from the parsed rows,
both against the same published `snapshot_hash_hex`; if both match on one
run, the two digests are equal. -/
theorem C10_two_digests_agree (B2 : List Nat → List Nat) (snapshot : List Nat)
    (art : Artifact) (period : String) (rows : List Row)
    (h1 : level1 B2 snapshot art = true)
    (h2 : ok_hash B2 art period rows = true) :
    blake2b_hex B2 snapshot = compute_canonical_snapshot_hash B2 period rows := by
  unfold level1 at h1
  unfold ok_hash at h2
  rw [Bool.and_eq_true] at h1
  have e1 := beq_iff_eq.mp h1.1
  have e2 := beq_iff_eq.mp h2
  rw [show normHex (blake2b_hex B2 snapshot) = blake2b_hex B2 snapshot from
    normHex_hexEncode _] at e1
  rw [show normHex (compute_canonical_snapshot_hash B2 period rows) =
    compute_canonical_snapshot_hash B2 period rows from normHex_hexEncode _] at e2
  rw [← e1, ← e2]

/-- Witness for C10 at a concrete run. -/
theorem C10_two_digests_agree_witness :
    blake2b_hex (fun _ => [0]) [7] =
      compute_canonical_snapshot_hash (fun _ => [0]) "2026-01" [] := by
  exact C10_two_digests_agree (fun _ => [0]) [7] hashOnlyArtifact "2026-01" []
    (by decide) (by decide)

/-! ## Level 2 and the missing negative-weight check (claims C6, C7) -/

/-- C6: the module docstring promises that Level 2 verifies "no negative
weights", but the Level 2 block of `main` checks only totals, ordering and
the canonical hash.  On a snapshot containing a record of weight `-1`
whose published totals and canonical hash agree with the file, Level 2
passes, for every choice of hash function. -/
theorem C6_negative_weight_passes_level2 (B2 : List Nat → List Nat) :
    (∃ r ∈ negRows, r.w < 0) ∧ level2 B2 (negArtifact B2) "2026-01" negRows = true := by
  constructor
  · exact ⟨⟨0, "a", -1⟩, List.mem_cons_self .., by decide⟩
  · unfold level2 ok_totals ok_hash negArtifact
    rw [show normHex (pyStrOr (some (compute_canonical_snapshot_hash B2 "2026-01" negRows))) =
      compute_canonical_snapshot_hash B2 "2026-01" negRows from normHex_hexEncode _]
    rw [show normHex (compute_canonical_snapshot_hash B2 "2026-01" negRows) =
      compute_canonical_snapshot_hash B2 "2026-01" negRows from normHex_hexEncode _]
    simp only [Bool.and_eq_true, beq_iff_eq]
    refine ⟨⟨?_, ?_⟩, ?_⟩ <;> decide

/-! ## Order Validator characterization (claims C4, C7) -/

theorem validateGo_eq_specWalk : ∀ (rs : List Row) (r : Row) (i : Nat),
    validateGo (some r.shard) (some r.uid) i rs = specWalk r i rs := by
  intro rs
  induction rs with
  | nil => intro r i; rfl
  | cons b bs ih =>
    intro r i
    simp only [validateGo, specWalk]
    by_cases h1 : r.shard < b.shard
    · rw [if_pos h1, if_pos h1, ih]
    · rw [if_neg h1, if_neg h1]
      by_cases h2 : b.shard < r.shard
      · rw [if_pos h2, if_pos h2]
      · rw [if_neg h2, if_neg h2]
        by_cases h3 : b.uid < r.uid
        · rw [if_pos h3, if_pos h3]
        · rw [if_neg h3, if_neg h3, ih]

theorem validate_cons_eq (r : Row) (rs : List Row) :
    validate_canonical_order (r :: rs) = specWalk r 1 rs := by
  simp only [validate_canonical_order, validateGo]
  exact validateGo_eq_specWalk rs r 1

theorem pairOk_of_branches {p b : Row} (h1 : ¬ p.shard < b.shard)
    (h2 : ¬ b.shard < p.shard) (h3 : ¬ b.uid < p.uid) : pairOk p b :=
  Or.inr ⟨by omega, h3⟩

theorem not_pairOk_shard {p b : Row} (h2 : b.shard < p.shard) : ¬ pairOk p b := by
  rintro (h | ⟨he, _⟩) <;> omega

theorem not_pairOk_uid {p b : Row} (h1 : ¬ p.shard < b.shard) (h3 : b.uid < p.uid) :
    ¬ pairOk p b := by
  rintro (h | ⟨he, hu⟩)
  · omega
  · exact hu h3

theorem specWalk_ok : ∀ (rs : List Row) (p : Row) (i : Nat),
    specWalk p i rs = .ok ↔ List.Chain' pairOk (p :: rs) := by
  intro rs
  induction rs with
  | nil =>
    intro p i
    simp [specWalk]
  | cons b bs ih =>
    intro p i
    rw [List.chain'_cons]
    simp only [specWalk]
    by_cases h1 : p.shard < b.shard
    · rw [if_pos h1, ih]
      exact (and_iff_right (Or.inl h1)).symm
    · rw [if_neg h1]
      by_cases h2 : b.shard < p.shard
      · rw [if_pos h2]
        constructor
        · intro h; cases h
        · rintro ⟨hpk, _⟩; exact absurd hpk (not_pairOk_shard h2)
      · rw [if_neg h2]
        by_cases h3 : b.uid < p.uid
        · rw [if_pos h3]
          constructor
          · intro h; cases h
          · rintro ⟨hpk, _⟩; exact absurd hpk (not_pairOk_uid h1 h3)
        · rw [if_neg h3, ih]
          exact (and_iff_right (pairOk_of_branches h1 h2 h3)).symm

theorem specWalk_shardDec : ∀ (rs : List Row) (p : Row) (i k : Nat),
    specWalk p i rs = .shardDecreased k ↔
      ∃ j, j < rs.length ∧ k = i + j ∧
        (rs.getD j dRow).shard < ((p :: rs).getD j dRow).shard ∧
        ∀ m < j, pairOk ((p :: rs).getD m dRow) (rs.getD m dRow) := by
  intro rs
  induction rs with
  | nil =>
    intro p i k
    simp [specWalk]
  | cons b bs ih =>
    intro p i k
    simp only [specWalk]
    by_cases h1 : p.shard < b.shard
    · rw [if_pos h1, ih]
      constructor
      · rintro ⟨j, hj, hk, hbad, hall⟩
        refine ⟨j + 1, by simpa using hj, by omega, by simpa using hbad, ?_⟩
        intro m hm
        cases m with
        | zero => simpa using Or.inl h1
        | succ m => simpa using hall m (by omega)
      · rintro ⟨j, hj, hk, hbad, hall⟩
        cases j with
        | zero =>
          simp only [List.getD_cons_zero] at hbad
          omega
        | succ j =>
          refine ⟨j, by simpa using hj, by omega, by simpa using hbad, ?_⟩
          intro m hm
          simpa using hall (m + 1) (by omega)
    · rw [if_neg h1]
      by_cases h2 : b.shard < p.shard
      · rw [if_pos h2]
        constructor
        · intro h
          refine ⟨0, by simp, ?_, by simpa using h2, by omega⟩
          cases h
          omega
        · rintro ⟨j, hj, hk, hbad, hall⟩
          cases j with
          | zero => cases hk; rfl
          | succ j =>
            have := hall 0 (by omega)
            simp only [List.getD_cons_zero] at this
            exact absurd this (not_pairOk_shard h2)
      · rw [if_neg h2]
        by_cases h3 : b.uid < p.uid
        · rw [if_pos h3]
          constructor
          · intro h; cases h
          · rintro ⟨j, hj, hk, hbad, hall⟩
            cases j with
            | zero =>
              simp only [List.getD_cons_zero] at hbad
              omega
            | succ j =>
              have := hall 0 (by omega)
              simp only [List.getD_cons_zero] at this
              exact absurd this (not_pairOk_uid h1 h3)
        · rw [if_neg h3, ih]
          constructor
          · rintro ⟨j, hj, hk, hbad, hall⟩
            refine ⟨j + 1, by simpa using hj, by omega, by simpa using hbad, ?_⟩
            intro m hm
            cases m with
            | zero => simpa using pairOk_of_branches h1 h2 h3
            | succ m => simpa using hall m (by omega)
          · rintro ⟨j, hj, hk, hbad, hall⟩
            cases j with
            | zero =>
              simp only [List.getD_cons_zero] at hbad
              omega
            | succ j =>
              refine ⟨j, by simpa using hj, by omega, by simpa using hbad, ?_⟩
              intro m hm
              simpa using hall (m + 1) (by omega)

theorem specWalk_userNotAsc : ∀ (rs : List Row) (p : Row) (i k : Nat),
    specWalk p i rs = .userNotAscending k ↔
      ∃ j, j < rs.length ∧ k = i + j ∧
        (rs.getD j dRow).shard = ((p :: rs).getD j dRow).shard ∧
        (rs.getD j dRow).uid < ((p :: rs).getD j dRow).uid ∧
        ∀ m < j, pairOk ((p :: rs).getD m dRow) (rs.getD m dRow) := by
  intro rs
  induction rs with
  | nil =>
    intro p i k
    simp [specWalk]
  | cons b bs ih =>
    intro p i k
    simp only [specWalk]
    by_cases h1 : p.shard < b.shard
    · rw [if_pos h1, ih]
      constructor
      · rintro ⟨j, hj, hk, hsh, hu, hall⟩
        refine ⟨j + 1, by simpa using hj, by omega, by simpa using hsh,
          by simpa using hu, ?_⟩
        intro m hm
        cases m with
        | zero => simpa using Or.inl h1
        | succ m => simpa using hall m (by omega)
      · rintro ⟨j, hj, hk, hsh, hu, hall⟩
        cases j with
        | zero =>
          simp only [List.getD_cons_zero] at hsh
          omega
        | succ j =>
          refine ⟨j, by simpa using hj, by omega, by simpa using hsh,
            by simpa using hu, ?_⟩
          intro m hm
          simpa using hall (m + 1) (by omega)
    · rw [if_neg h1]
      by_cases h2 : b.shard < p.shard
      · rw [if_pos h2]
        constructor
        · intro h; cases h
        · rintro ⟨j, hj, hk, hsh, hu, hall⟩
          cases j with
          | zero =>
            simp only [List.getD_cons_zero] at hsh
            omega
          | succ j =>
            have := hall 0 (by omega)
            simp only [List.getD_cons_zero] at this
            exact absurd this (not_pairOk_shard h2)
      · rw [if_neg h2]
        by_cases h3 : b.uid < p.uid
        · rw [if_pos h3]
          constructor
          · intro h
            refine ⟨0, by simp, ?_, by simp only [List.getD_cons_zero]; omega,
              by simpa using h3, by omega⟩
            cases h
            omega
          · rintro ⟨j, hj, hk, hsh, hu, hall⟩
            cases j with
            | zero => cases hk; rfl
            | succ j =>
              have := hall 0 (by omega)
              simp only [List.getD_cons_zero] at this
              exact absurd this (not_pairOk_uid h1 h3)
        · rw [if_neg h3, ih]
          constructor
          · rintro ⟨j, hj, hk, hsh, hu, hall⟩
            refine ⟨j + 1, by simpa using hj, by omega, by simpa using hsh,
              by simpa using hu, ?_⟩
            intro m hm
            cases m with
            | zero => simpa using pairOk_of_branches h1 h2 h3
            | succ m => simpa using hall m (by omega)
          · rintro ⟨j, hj, hk, hsh, hu, hall⟩
            cases j with
            | zero =>
              simp only [List.getD_cons_zero] at hu
              exact absurd hu h3
            | succ j =>
              refine ⟨j, by simpa using hj, by omega, by simpa using hsh,
                by simpa using hu, ?_⟩
              intro m hm
              simpa using hall (m + 1) (by omega)

/-- C4: the Order Validator returns valid exactly when every adjacent pair
of rows has strictly increasing shard, or equal shard with non-decreasing
identity (equal identities accepted) — equivalently, shards are
non-decreasing and identities are non-decreasing within each run of equal
shards; on failure it reports the first offending index `j + 1` (the
second row of the earliest bad pair) and the rule broken: shard decrease,
or identity decrease within a shard. -/
theorem C4_validator_spec (rows : List Row) :
    (validate_canonical_order rows = .ok ↔ List.Chain' pairOk rows) ∧
    (∀ k, validate_canonical_order rows = .shardDecreased k ↔
      ∃ j, j + 1 < rows.length ∧ k = j + 1 ∧
        (rows.getD (j + 1) dRow).shard < (rows.getD j dRow).shard ∧
        ∀ m < j, pairOk (rows.getD m dRow) (rows.getD (m + 1) dRow)) ∧
    (∀ k, validate_canonical_order rows = .userNotAscending k ↔
      ∃ j, j + 1 < rows.length ∧ k = j + 1 ∧
        (rows.getD (j + 1) dRow).shard = (rows.getD j dRow).shard ∧
        (rows.getD (j + 1) dRow).uid < (rows.getD j dRow).uid ∧
        ∀ m < j, pairOk (rows.getD m dRow) (rows.getD (m + 1) dRow)) := by
  cases rows with
  | nil =>
    refine ⟨by simp [validate_canonical_order, validateGo], ?_, ?_⟩ <;> intro k <;>
      simp [validate_canonical_order, validateGo]
  | cons p rs =>
    refine ⟨?_, ?_, ?_⟩
    · rw [validate_cons_eq, specWalk_ok]
    · intro k
      rw [validate_cons_eq, specWalk_shardDec]
      constructor
      · rintro ⟨j, hj, hk, hbad, hall⟩
        refine ⟨j, by simpa using hj, by omega, by simpa using hbad, ?_⟩
        intro m hm
        simpa using hall m hm
      · rintro ⟨j, hj, hk, hbad, hall⟩
        refine ⟨j, by simpa using hj, by omega, by simpa using hbad, ?_⟩
        intro m hm
        simpa using hall m hm
    · intro k
      rw [validate_cons_eq, specWalk_userNotAsc]
      constructor
      · rintro ⟨j, hj, hk, hsh, hu, hall⟩
        refine ⟨j, by simpa using hj, by omega, by simpa using hsh,
          by simpa using hu, ?_⟩
        intro m hm
        simpa using hall m hm
      · rintro ⟨j, hj, hk, hsh, hu, hall⟩
        refine ⟨j, by simpa using hj, by omega, by simpa using hsh,
          by simpa using hu, ?_⟩
        intro m hm
        simpa using hall m hm

theorem actual_entries_filter (rows : List Row) :
    actual_entries rows = actual_entries (rows.filter (fun r => 0 < r.w)) := by
  induction rows with
  | nil => rfl
  | cons r rs ih =>
    rw [List.filter_cons]
    by_cases h : 0 < r.w
    · rw [if_pos (by simpa using h)]
      simp only [actual_entries, List.map_cons, List.sum_cons] at ih ⊢
      rw [ih]
    · rw [if_neg (by simpa using h)]
      simp only [actual_entries, List.map_cons, List.sum_cons] at ih ⊢
      rw [max_eq_left (by omega), zero_add, ih]

theorem validateGo_weight_indep (g : Int → Int) : ∀ (rs : List Row) (lastS : Option Int)
    (lastU : Option String) (i : Nat),
    validateGo lastS lastU i (rs.map (fun r => ⟨r.shard, r.uid, g r.w⟩)) =
      validateGo lastS lastU i rs := by
  intro rs
  induction rs with
  | nil => intro _ _ _; rfl
  | cons r rs ih =>
    intro lastS lastU i
    cases lastS with
    | none =>
      simp only [List.map_cons, validateGo]
      exact ih ..
    | some ls =>
      simp only [List.map_cons, validateGo]
      by_cases h1 : ls < r.shard
      · rw [if_pos h1, if_pos h1]
        exact ih ..
      · rw [if_neg h1, if_neg h1]
        by_cases h2 : r.shard < ls
        · rw [if_pos h2, if_pos h2]
        · rw [if_neg h2, if_neg h2]
          cases lastU with
          | none => exact ih ..
          | some lu =>
            dsimp only
            by_cases h3 : r.uid < lu
            · rw [if_pos h3, if_pos h3]
            · rw [if_neg h3, if_neg h3]
              exact ih ..

/-- C7: `actual_entries` clamps negative weights to zero (dropping the
non-positive-weight records leaves the sum unchanged), while the Order
Validator's verdict never depends on the weights — in particular it
accepts a sequence containing a negative weight. -/
theorem C7_entries_clamp_order_indep (rows : List Row) (g : Int → Int) :
    actual_entries rows = actual_entries (rows.filter (fun r => 0 < r.w)) ∧
    validate_canonical_order (rows.map (fun r => ⟨r.shard, r.uid, g r.w⟩)) =
      validate_canonical_order rows ∧
    validate_canonical_order negRows = .ok :=
  ⟨actual_entries_filter rows, validateGo_weight_indep g rows none none 0, by decide⟩

/-! ## Snapshot Parser characterization (claim C8) -/

theorem parseRows_ne_format (header : List String) : ∀ (rows : List (List String)) (i : Nat),
    parseRows header rows i ≠ .error .formatError := by
  intro rows
  induction rows with
  | nil => intro i h; cases h
  | cons row rest ih =>
    intro i
    simp only [parseRows]
    cases hrow : parseRow header row with
    | none => intro h; cases h
    | some r =>
      cases hrec : parseRows header rest (i + 1) with
      | error e =>
        intro h
        cases h
        exact ih (i + 1) hrec
      | ok rs => intro h; cases h

theorem parseRows_rowError (header : List String) : ∀ (rows : List (List String)) (i n : Nat),
    parseRows header rows i = .error (.rowError n) ↔
      ∃ j, j < rows.length ∧ n = i + j ∧ parseRow header (rows.getD j []) = none ∧
        ∀ m < j, parseRow header (rows.getD m []) ≠ none := by
  intro rows
  induction rows with
  | nil =>
    intro i n
    simp [parseRows]
  | cons row rest ih =>
    intro i n
    simp only [parseRows]
    cases hrow : parseRow header row with
    | none =>
      constructor
      · intro h
        cases h
        exact ⟨0, by simp, by omega, by simpa using hrow, by omega⟩
      · rintro ⟨j, hj, hn, hbad, hall⟩
        cases j with
        | zero => cases hn; rfl
        | succ j =>
          exact absurd hrow (by simpa using hall 0 (by omega))
    | some r =>
      have step : (match parseRows header rest (i + 1) with
          | .error e => (.error e : Except ParseError (List Row))
          | .ok rs => .ok (r :: rs)) = .error (.rowError n) ↔
          parseRows header rest (i + 1) = .error (.rowError n) := by
        cases hrec : parseRows header rest (i + 1) with
        | error e =>
          constructor
          · intro h; cases h; rfl
          · intro h; cases h; rfl
        | ok rs =>
          constructor
          · intro h; cases h
          · intro h; cases h
      rw [step, ih]
      constructor
      · rintro ⟨j, hj, hn, hbad, hall⟩
        refine ⟨j + 1, by simpa using hj, by omega, by simpa using hbad, ?_⟩
        intro m hm
        cases m with
        | zero => simpa using hrow.symm ▸ (by simp [hrow] : parseRow header row ≠ none)
        | succ m => simpa using hall m (by omega)
      · rintro ⟨j, hj, hn, hbad, hall⟩
        cases j with
        | zero =>
          simp only [List.getD_cons_zero] at hbad
          rw [hrow] at hbad
          cases hbad
        | succ j =>
          refine ⟨j, by simpa using hj, by omega, by simpa using hbad, ?_⟩
          intro m hm
          simpa using hall (m + 1) (by omega)

/-- C8: the Snapshot Parser fails with the format error exactly when one
of the required columns `shard`, `user_id`, `weight` is missing from the
header (an empty input has no header); with the header present it fails
with a row error exactly at the first data row whose `shard` or `weight`
field does not convert to an integer, carrying that row's 1-based csv
line number (data row `i`, counted from 0, is on line `i + 2`); the
identity field is taken verbatim and never makes a row fail. -/
theorem C8_parser_spec (header : List String) (dataRows : List (List String)) :
    (parse_snapshot_csv [] = .error .formatError) ∧
    (parse_snapshot_csv (header :: dataRows) = .error .formatError ↔
      ¬ requiredCols.all (fun c => header.contains c) = true) ∧
    (∀ n, parse_snapshot_csv (header :: dataRows) = .error (.rowError n) ↔
      requiredCols.all (fun c => header.contains c) = true ∧
      ∃ i, i < dataRows.length ∧ n = i + 2 ∧
        parseRow header (dataRows.getD i []) = none ∧
        ∀ j < i, parseRow header (dataRows.getD j []) ≠ none) ∧
    (∀ row, parseRow header row = none ↔
      pyIntField (dictVal header row "shard") = none ∨
      pyIntField (dictVal header row "weight") = none) := by
  refine ⟨rfl, ?_, ?_, ?_⟩
  · simp only [parse_snapshot_csv]
    by_cases hreq : requiredCols.all (fun c => header.contains c) = true
    · rw [if_pos hreq]
      simp only [hreq, not_true, iff_false]
      exact parseRows_ne_format header dataRows 2
    · rw [if_neg hreq]
      exact iff_of_true rfl hreq
  · intro n
    simp only [parse_snapshot_csv]
    by_cases hreq : requiredCols.all (fun c => header.contains c) = true
    · rw [if_pos hreq, parseRows_rowError]
      simp only [hreq, true_and]
      constructor
      · rintro ⟨j, hj, hn, hbad, hall⟩
        exact ⟨j, hj, by omega, hbad, hall⟩
      · rintro ⟨j, hj, hn, hbad, hall⟩
        exact ⟨j, hj, by omega, hbad, hall⟩
    · rw [if_neg hreq]
      exact iff_of_false (by simp) (fun hc => hreq hc.1)
  · intro row
    unfold parseRow
    cases hs : pyIntField (dictVal header row "shard") with
    | none => simp
    | some sh =>
      cases hw : pyIntField (dictVal header row "weight") with
      | none => simp
      | some w => simp

/-! ## Reproduction Engine (claims C2, C9) -/

theorem reproduce_winners_spec {α : Type} [LinearOrder α]
    (score : Int → String → Int → α) (rows : List Row) (k : Nat) :
    (∀ x ∈ reproduce_winners score rows k, ∃ r ∈ rows, 0 < r.w ∧ x = (r.uid, r.w)) ∧
    ∃ l : List (α × String × Int),
      l.Perm ((rows.filter (fun r => 0 < r.w)).map
        (fun r => (score r.shard r.uid r.w, r.uid, r.w))) ∧
      l.Pairwise (fun a b => a.1 ≤ b.1) ∧
      reproduce_winners score rows k = (l.take k).map (fun t => (t.2.1, t.2.2)) := by
  constructor
  · intro x hx
    simp only [reproduce_winners] at hx
    obtain ⟨t, ht, hxt⟩ := List.mem_map.mp hx
    have hts : t ∈ ((rows.filter (fun r => 0 < r.w)).map
        (fun r => (score r.shard r.uid r.w, r.uid, r.w))).mergeSort
        (fun a b => decide (a.1 ≤ b.1)) := List.take_subset k _ ht
    have htsc := (List.mergeSort_perm _ _).mem_iff.mp hts
    obtain ⟨r, hrf, hrt⟩ := List.mem_map.mp htsc
    obtain ⟨hrrows, hrw⟩ := List.mem_filter.mp hrf
    refine ⟨r, hrrows, by simpa using hrw, ?_⟩
    rw [← hxt, ← hrt]
  · refine ⟨_, List.mergeSort_perm _ (fun a b => decide (a.1 ≤ b.1)), ?_, ?_⟩
    · have hs := @List.sorted_mergeSort (α × String × Int)
        (fun a b => decide (a.1 ≤ b.1))
        (fun a b c hab hbc => by
          simp only [decide_eq_true_eq] at hab hbc ⊢
          exact le_trans hab hbc)
        (fun a b => by
          simp only [Bool.or_eq_true, decide_eq_true_eq]
          exact le_total a.1 b.1)
        ((rows.filter (fun r => 0 < r.w)).map
          (fun r => (score r.shard r.uid r.w, r.uid, r.w)))
      exact hs.imp (fun h => by simpa using h)
    · rfl

/-- C2: for every revealed seed, period, record sequence and k_total, the
Reproduction Engine scores exactly the records with positive weight
(non-positive weights never reach the output), gives each the score
`-ln(u) / weight` with `u = derive_u(seed, period, shard, identity)`, and
returns the `(user_id, weight)` pairs of the first `k_total` entries of an
ascending-by-score ordering of the scored records, in rank order. -/
theorem C2_reproduce_spec (B2 : List Nat → List Nat) (seed : List Nat)
    (period : String) (rows : List Row) (k_total : Nat) :
    (∀ x ∈ reproduce_winners
        (fun sh uid w => -Real.log ((derive_u B2 seed period sh uid : ℚ) : ℝ) / (w : ℝ))
        rows k_total,
      ∃ r ∈ rows, 0 < r.w ∧ x = (r.uid, r.w)) ∧
    ∃ l : List (ℝ × String × Int),
      l.Perm ((rows.filter (fun r => 0 < r.w)).map
        (fun r => (-Real.log ((derive_u B2 seed period r.shard r.uid : ℚ) : ℝ) / (r.w : ℝ),
          r.uid, r.w))) ∧
      l.Pairwise (fun a b => a.1 ≤ b.1) ∧
      reproduce_winners
        (fun sh uid w => -Real.log ((derive_u B2 seed period sh uid : ℚ) : ℝ) / (w : ℝ))
        rows k_total = (l.take k_total).map (fun t => (t.2.1, t.2.2)) :=
  reproduce_winners_spec
    (fun sh uid w => -Real.log ((derive_u B2 seed period sh uid : ℚ) : ℝ) / (w : ℝ))
    rows k_total

/-- C9: when the artifact reveals no seed (no `commit.seed_hex` and no
legacy top-level `seed_hex`), Level 3 under the default `skip` policy
reports the skipped outcome, which is distinct from the error outcome, and
never invokes score derivation or winner reproduction: the outcome is the
same for every derivation function. -/
theorem C9_missing_seed_skips {α : Type} [LinearOrder α]
    (scoreOf₁ scoreOf₂ : String → Int → String → Int → α)
    (art : Artifact) (rows : List Row)
    (h1 : art.commit_seed_hex = none) (h2 : art.legacy_seed_hex = none) :
    level3 scoreOf₁ .skip art rows = .skipped ∧
    L3Status.skipped ≠ L3Status.errored ∧
    level3 scoreOf₁ .skip art rows = level3 scoreOf₂ .skip art rows := by
  unfold level3 pyOrOpt truthyStr
  rw [h1, h2]
  exact ⟨rfl, by decide, rfl⟩

/-- Witness for C9 at a concrete seedless artifact. -/
theorem C9_missing_seed_skips_witness :
    level3 (fun _ _ _ w => (w : Int)) .skip ⟨none, none, none, none, none, none, none⟩ [] =
      .skipped :=
  (C9_missing_seed_skips (fun _ _ _ w => (w : Int)) (fun _ _ _ w => (w : Int))
    ⟨none, none, none, none, none, none, none⟩ [] rfl rfl).1

end LoyaltyAudit
